import Mathlib

/-!
Verification development for the level-stream-access library.

The library stores byte streams inside an ordered key-value store (levelup).
A stream with key `K` is kept as chunk entries under keys `K ++ " " ++ index`
(hex index strings), a system metadata record under `K ++ " #"` and a user
metadata record under `K ++ " *"`.  The store iterates keys in the
lexicographic order of JS strings, which we model as `List Char` with a
boolean lexicographic comparison.  The store itself is modelled as an
association list sorted by key, which is exactly the observable behaviour of
the level iterator interface used by the source.
-/

namespace LevelStream

/-- Binary chunk payloads (JS Buffers), modelled as lists of bytes. -/
abbrev Bytes := List Nat

/-- JSON-like metadata objects: field name to value, in insertion order
(JS object property order).  Field values are abstracted to `Nat`. -/
abbrev Obj := List (String × Nat)

/-- Values stored in the database: binary chunks or JSON records. -/
inductive Val where
  | bytes : Bytes → Val
  | obj : Obj → Val
deriving DecidableEq

/-- Database keys are JS strings, modelled as lists of characters. -/
abbrev Key := List Char

/-- Strict lexicographic order on keys: the comparison the level store uses
for iteration order and for the `gt` and `lt` range bounds. -/
def lexLt : Key → Key → Bool
  | _, [] => false
  | [], _ :: _ => true
  | a :: as, b :: bs => if a < b then true else if b < a then false else lexLt as bs

/-- The store: an association list of entries sorted by `lexLt` on keys,
mirroring the ordered key space of leveldb. -/
abbrev Store := List (Key × Val)

/-- Point lookup (`db.get`): `none` models the NotFoundError path. -/
def getStore : Store → Key → Option Val
  | [], _ => none
  | (k, v) :: rest, q => if k = q then some v else getStore rest q

/-- Point write (`db.put`): sorted insert, replacing an existing entry. -/
def putStore : Store → Key → Val → Store
  | [], k, v => [(k, v)]
  | (k', v') :: rest, k, v =>
    if lexLt k k' then (k, v) :: (k', v') :: rest
    else if lexLt k' k then (k', v') :: putStore rest k v
    else (k, v) :: rest

/-- Membership of a key in the open interval `(lo, hi)`: the `gt`/`lt`
bounds of a level iterator, both exclusive. -/
def inRange (lo hi k : Key) : Bool := lexLt lo k && lexLt k hi

/-- Range scan with bounds `gt: lo, lt: hi`: the entries, in key order. -/
def scanRange (db : Store) (lo hi : Key) : Store :=
  db.filter fun e => inRange lo hi e.1

/-- Lower bound of the deletion scan in `streamDelete`: `key + ' '`. -/
def delLo (key : Key) : Key := key ++ [' ']

/-- Upper bound of every scan over a stream's entries: `key + ' :'`. -/
def delHi (key : Key) : Key := key ++ [' ', ':']

/-- Lower bound of the chunk scans of the reader (default start index) and
of `streamPrepend`: `key + ' /'`. -/
def chunkLo (key : Key) : Key := key ++ [' ', '/']

/-- `streamDelete` from the source: collects every key in the range
`(key + ' ', key + ' :')` and deletes them as one batch, returning the
count of deleted entries (0 when the scan found nothing). -/
def streamDelete (db : Store) (key : Key) : Store × Nat :=
  ((db.filter fun e => !(inRange (delLo key) (delHi key) e.1)),
   (scanRange db (delLo key) (delHi key)).length)

/-- The system metadata (existence) record key: `key + ' #'`. -/
def metaKey (key : Key) : Key := key ++ [' ', '#']

/-- The user metadata record key: `key + ' *'`. -/
def userKey (key : Key) : Key := key ++ [' ', '*']

/-- JS property assignment `o[f] = v`: replaces the value in place when the
field exists, appends the field otherwise. -/
def setField (o : Obj) (f : String) (v : Nat) : Obj :=
  match o with
  | [] => [(f, v)]
  | (g, w) :: rest => if g = f then (f, v) :: rest else (g, w) :: setField rest f v

/-- The merge loop of `streamGetMeta`:
`Object.keys(data).forEach(key => { userData[key] = data[key]; })` —
copies every system field into the user object, so system fields win. -/
def mergeObjs (sys user : Obj) : Obj :=
  sys.foldl (fun acc kv => setField acc kv.1 kv.2) user

/-- View a stored value as a JSON object.  The API only ever stores JSON
records under the metadata keys, so the `bytes` case is unreachable there. -/
def toObj : Val → Obj
  | .obj o => o
  | .bytes _ => []

/-- JS property lookup on a metadata object. -/
def lookupObj : Obj → String → Option Nat
  | [], _ => none
  | (g, w) :: rest, f => if g = f then some w else lookupObj rest f

/-- `streamSetMeta` from the source: gets `key + ' #'`; on NotFoundError
reports `false` without writing, otherwise stores the user data under
`key + ' *'` and reports `true`. -/
def streamSetMeta (db : Store) (key : Key) (data : Obj) : Store × Bool :=
  match getStore db (metaKey key) with
  | none => (db, false)
  | some _ => (putStore db (userKey key) (Val.obj data), true)

/-- `streamGetMeta` from the source: gets `key + ' #'` then `key + ' *'`;
either NotFoundError reports `false` (`none`); otherwise the system fields
are copied over the user object and the result is returned. -/
def streamGetMeta (db : Store) (key : Key) : Option Obj :=
  match getStore db (metaKey key) with
  | none => none
  | some sys =>
    match getStore db (userKey key) with
    | none => none
    | some user => some (mergeObjs (toObj sys) (toObj user))

/-- Little-endian hex digit extraction, structurally recursive on a fuel
bound so that it evaluates inside the kernel. -/
def hexDigitsFuel : Nat → Nat → List Nat
  | 0, _ => []
  | fuel + 1, n => if n = 0 then [] else n % 16 :: hexDigitsFuel fuel (n / 16)

/-- Little-endian hex digit values of `n` (empty for 0): `n` itself is
always enough fuel since `n / 16 < n` for positive `n`. -/
def hexDigitsAux (n : Nat) : List Nat := hexDigitsFuel n n

/-- Big-endian hex digit values of `n` (`[0]` for 0). -/
def bigDigits (n : Nat) : List Nat :=
  if n = 0 then [0] else (hexDigitsAux n).reverse

/-- JS `n.toString(16)` for a non-negative integer: lowercase hex digits,
most significant first, no leading zeros, `"0"` for 0. -/
def natToHex (n : Nat) : Key := (bigDigits n).map Nat.digitChar

/-- Numeric value of a big-endian list of hex digit values. -/
def ofDigitsBE (l : List Nat) : Nat := l.foldl (fun a d => a * 16 + d) 0

/-- JS `i.toString(16)` for an integer: `'-'` prefix for negative values. -/
def intToHex (i : Int) : Key :=
  if i < 0 then '-' :: natToHex i.natAbs else natToHex i.toNat

/-- Hex digit value of a character, `none` for non-hex characters. -/
def hexVal (c : Char) : Option Nat :=
  if '0' ≤ c ∧ c ≤ '9' then some (c.toNat - '0'.toNat)
  else if 'a' ≤ c ∧ c ≤ 'f' then some (c.toNat - 'a'.toNat + 10)
  else if 'A' ≤ c ∧ c ≤ 'F' then some (c.toNat - 'A'.toNat + 10)
  else none

/-- JS `parseInt(s, 16)`: parses the longest hex-digit prefix, `none`
models NaN (no leading hex digit). -/
def jsParseInt16 (s : Key) : Option Nat :=
  let ds := s.takeWhile fun c => (hexVal c).isSome
  if ds.isEmpty then none
  else some (ds.foldl (fun a c => a * 16 + (hexVal c).getD 0) 0)

/-- The index rewrite of `streamPrepend`:
`(parseInt(ix, 16) - 1).toString(16)`, with `"NaN"` when parsing fails. -/
def jsDecHex (s : Key) : Key :=
  match jsParseInt16 s with
  | none => ['N', 'a', 'N']
  | some n => intToHex ((n : Int) - 1)

/-- The net effect of `key.split(' ')`, `keyParts.pop()`,
`keyParts.join(' ')` in `streamPrepend`: splits the key at its last space
character (prefix is empty when the key has no space). -/
def splitLastSp (s : Key) : Key × Key :=
  let r := s.reverse
  ((r.dropWhile fun c => c ≠ ' ').tail.reverse,
   (r.takeWhile fun c => c ≠ ' ').reverse)

/-- `streamPrepend` from the source: finds the first key in
`(key + ' /', key + ' :')`; when none exists reports `false` without
writing; otherwise decrements the trailing hex component of the found key
and stores the chunk there. -/
def streamPrepend (db : Store) (key : Key) (chunk : Bytes) : Store × Bool :=
  match (scanRange db (chunkLo key) (delHi key)).head? with
  | none => (db, false)
  | some e =>
    let p := splitLastSp e.1
    (putStore db (p.1 ++ ' ' :: jsDecHex p.2) (Val.bytes chunk), true)

/-- The default `startIndex` of `LevelReadStream`: `'/'`. -/
def defaultStart : Key := ['/']

/-- The chunk values emitted by a full `LevelReadStream` run: the scan over
`(key + ' ' + startIndex, key + ' :')` in key order. -/
def readStreamList (db : Store) (key : Key) (startIndex : Key) : List Val :=
  (scanRange db (key ++ ' ' :: startIndex) (delHi key)).map (·.2)

/-- Byte content of a read chunk. -/
def vBytes : Val → Bytes
  | .bytes b => b
  | .obj _ => []

/-- Chunk key for an index produced by the sequence generator:
`key + ' ' + index`. -/
def chunkKey (key : Key) (ix : Key) : Key := key ++ ' ' :: ix

/-- The `_initial` flag computed by the writer constructors, literally
`options && options.append ? options.append : true` with a boolean
`append` (`false` also models an absent option). -/
def initInitial (append : Bool) : Bool := if append then append else true

/-- Internal state of a write (or store-and-forward) session. -/
structure WState where
  db : Store
  initial : Bool
  ctr : Nat

/-- `LevelWriteStream._write` on one incoming buffer: empty buffers are
ignored; the first stored buffer of an initial session first runs
`streamDelete`, then writes the `' #'` record with the current timestamp,
then stores the chunk; every stored chunk consumes one generated index. -/
def writeOne (key : Key) (gen : Nat → Key) (ts : Nat) (st : WState) (chunk : Bytes) : WState :=
  if chunk.isEmpty then st
  else
    let st1 :=
      if st.initial then
        { db := putStore (streamDelete st.db key).1 (metaKey key) (Val.obj [("created", ts)]),
          initial := false, ctr := st.ctr }
      else st
    { db := putStore st1.db (chunkKey key (gen st1.ctr)) (Val.bytes chunk),
      initial := st1.initial, ctr := st1.ctr + 1 }

/-- A whole write session: the buffers piped through `LevelWriteStream`
for `key`, with `gen` the injected sequential index generator
(the external seq-index dependency) and `ts` the session timestamp. -/
def writeAll (db : Store) (key : Key) (gen : Nat → Key) (ts : Nat)
    (append : Bool) (bufs : List Bytes) : Store :=
  (bufs.foldl (writeOne key gen ts) ⟨db, initInitial append, 0⟩).db

/-- The chunk entries a session starting at counter `i` appends. -/
def chunkEntries (key : Key) (gen : Nat → Key) (i : Nat) : List Bytes → Store
  | [] => []
  | b :: bs => (chunkKey key (gen i), Val.bytes b) :: chunkEntries key gen (i + 1) bs

/-- The sortedness invariant of the store: keys strictly increasing. -/
def SortedStore (db : Store) : Prop :=
  db.Pairwise fun a b => lexLt a.1 b.1 = true

instance (db : Store) : Decidable (SortedStore db) := by
  unfold SortedStore; infer_instance

theorem lexLt_nil_right (a : Key) : lexLt a [] = false := by
  cases a <;> rfl

theorem lexLt_cons_same (c : Char) (a b : Key) : lexLt (c :: a) (c :: b) = lexLt a b := by
  simp [lexLt]

theorem lexLt_irrefl (a : Key) : lexLt a a = false := by
  induction a with
  | nil => rfl
  | cons c a ih => simp [lexLt, ih]

theorem lexLt_ne {a b : Key} (h : lexLt a b = true) : a ≠ b := by
  rintro rfl
  rw [lexLt_irrefl] at h
  exact Bool.false_ne_true h

theorem lexLt_asymm : ∀ {a b : Key}, lexLt a b = true → lexLt b a = false := by
  intro a
  induction a with
  | nil =>
    intro b h
    exact lexLt_nil_right b
  | cons c as ih =>
    intro b h
    cases b with
    | nil => rw [lexLt_nil_right] at h; exact absurd h (by simp)
    | cons d bs =>
      simp only [lexLt] at h ⊢
      by_cases h1 : c < d
      · rw [if_neg (asymm h1), if_pos h1]
      · rw [if_neg h1] at h
        by_cases h2 : d < c
        · rw [if_pos h2] at h; exact absurd h (by simp)
        · rw [if_neg h2] at h
          rw [if_neg h2, if_neg h1]
          exact ih h

theorem lexLt_trans : ∀ {a b c : Key}, lexLt a b = true → lexLt b c = true → lexLt a c = true := by
  intro a
  induction a with
  | nil =>
    intro b c hab hbc
    cases b with
    | nil => rw [lexLt_nil_right] at hab; exact absurd hab (by simp)
    | cons x bs =>
      cases c with
      | nil => rw [lexLt_nil_right] at hbc; exact absurd hbc (by simp)
      | cons y cs => rfl
  | cons x as ih =>
    intro b c hab hbc
    cases b with
    | nil => rw [lexLt_nil_right] at hab; exact absurd hab (by simp)
    | cons y bs =>
      cases c with
      | nil => rw [lexLt_nil_right] at hbc; exact absurd hbc (by simp)
      | cons z cs =>
        simp only [lexLt] at hab hbc ⊢
        by_cases h1 : x < y
        · by_cases h2 : y < z
          · rw [if_pos (lt_trans h1 h2)]
          · rw [if_neg h2] at hbc
            by_cases h3 : z < y
            · rw [if_pos h3] at hbc; exact absurd hbc (by simp)
            · have : y = z := le_antisymm (not_lt.mp h3) (not_lt.mp h2)
              rw [if_pos (this ▸ h1)]
        · rw [if_neg h1] at hab
          by_cases h4 : y < x
          · rw [if_pos h4] at hab; exact absurd hab (by simp)
          · rw [if_neg h4] at hab
            have hxy : x = y := le_antisymm (not_lt.mp h4) (not_lt.mp h1)
            subst hxy
            by_cases h2 : x < z
            · rw [if_pos h2]
            · rw [if_neg h2] at hbc ⊢
              by_cases h3 : z < x
              · rw [if_pos h3] at hbc; exact absurd hbc (by simp)
              · rw [if_neg h3] at hbc ⊢
                exact ih hab hbc

theorem lexLt_eq_of_not : ∀ {a b : Key}, lexLt a b = false → lexLt b a = false → a = b := by
  intro a
  induction a with
  | nil =>
    intro b hab _
    cases b with
    | nil => rfl
    | cons y bs => exact absurd hab (by simp [lexLt])
  | cons x as ih =>
    intro b hab hba
    cases b with
    | nil => exact absurd hba (by simp [lexLt])
    | cons y bs =>
      simp only [lexLt] at hab hba
      by_cases h1 : x < y
      · rw [if_pos h1] at hab; exact absurd hab (by simp)
      · rw [if_neg h1] at hab
        by_cases h2 : y < x
        · rw [if_pos h2] at hba; exact absurd hba (by simp)
        · rw [if_neg h2] at hab
          rw [if_neg h2, if_neg h1] at hba
          have hxy : x = y := le_antisymm (not_lt.mp h2) (not_lt.mp h1)
          rw [hxy, ih hab hba]

theorem lexLt_append_same (p a b : Key) : lexLt (p ++ a) (p ++ b) = lexLt a b := by
  induction p with
  | nil => rfl
  | cons c p ih => rw [List.cons_append, List.cons_append, lexLt_cons_same]; exact ih

theorem lexLt_append_right (p : Key) {a : Key} (h : a ≠ []) : lexLt p (p ++ a) = true := by
  induction p with
  | nil =>
    cases a with
    | nil => exact absurd rfl h
    | cons c as => rfl
  | cons c p ih => rw [List.cons_append, lexLt_cons_same]; exact ih

theorem lexLt_false_of_not {a b : Key} (h : ¬ lexLt a b = true) : lexLt a b = false := by
  simpa using h

theorem scanRange_cons (e : Key × Val) (db : Store) (lo hi : Key) :
    scanRange (e :: db) lo hi =
      if inRange lo hi e.1 = true then e :: scanRange db lo hi else scanRange db lo hi := by
  simp only [scanRange, List.filter_cons]

theorem mem_scanRange {db : Store} {lo hi : Key} {e : Key × Val} :
    e ∈ scanRange db lo hi ↔ e ∈ db ∧ inRange lo hi e.1 = true := by
  simp [scanRange, List.mem_filter]

theorem getStore_put_self (db : Store) (k : Key) (v : Val) :
    getStore (putStore db k v) k = some v := by
  induction db with
  | nil => simp [putStore, getStore]
  | cons e rest ih =>
    obtain ⟨k', v'⟩ := e
    simp only [putStore]
    by_cases h1 : lexLt k k' = true
    · rw [if_pos h1]; simp [getStore]
    · rw [if_neg h1]
      by_cases h2 : lexLt k' k = true
      · rw [if_pos h2]
        have hne : k' ≠ k := fun h => lexLt_ne h2 h
        simp [getStore, hne, ih]
      · rw [if_neg h2]; simp [getStore]

theorem getStore_put_other {db : Store} {k q : Key} (v : Val) (h : k ≠ q) :
    getStore (putStore db k v) q = getStore db q := by
  induction db with
  | nil => simp [putStore, getStore, h]
  | cons e rest ih =>
    obtain ⟨k', v'⟩ := e
    simp only [putStore]
    by_cases h1 : lexLt k k' = true
    · rw [if_pos h1]; simp [getStore, h]
    · rw [if_neg h1]
      by_cases h2 : lexLt k' k = true
      · rw [if_pos h2]; simp [getStore, ih]
      · rw [if_neg h2]
        have hkk : k = k' :=
          lexLt_eq_of_not (lexLt_false_of_not h1) (lexLt_false_of_not h2)
        subst hkk
        simp [getStore, h]

theorem mem_putStore {db : Store} {k : Key} {v : Val} {e : Key × Val}
    (h : e ∈ putStore db k v) : e = (k, v) ∨ e ∈ db := by
  induction db with
  | nil => simp [putStore] at h; simp [h]
  | cons f rest ih =>
    obtain ⟨k', v'⟩ := f
    simp only [putStore] at h
    by_cases h1 : lexLt k k' = true
    · rw [if_pos h1] at h
      rcases List.mem_cons.mp h with rfl | h
      · exact Or.inl rfl
      · exact Or.inr h
    · rw [if_neg h1] at h
      by_cases h2 : lexLt k' k = true
      · rw [if_pos h2] at h
        rcases List.mem_cons.mp h with rfl | h
        · exact Or.inr (List.mem_cons_self _ _)
        · rcases ih h with h | h
          · exact Or.inl h
          · exact Or.inr (List.mem_cons_of_mem _ h)
      · rw [if_neg h2] at h
        rcases List.mem_cons.mp h with rfl | h
        · exact Or.inl rfl
        · exact Or.inr (List.mem_cons_of_mem _ h)

theorem sorted_putStore {db : Store} (k : Key) (v : Val) (hs : SortedStore db) :
    SortedStore (putStore db k v) := by
  induction db with
  | nil => simp [putStore, SortedStore]
  | cons e rest ih =>
    obtain ⟨k', v'⟩ := e
    rw [SortedStore, List.pairwise_cons] at hs
    obtain ⟨hhead, htail⟩ := hs
    simp only [putStore]
    by_cases h1 : lexLt k k' = true
    · rw [if_pos h1, SortedStore, List.pairwise_cons]
      refine ⟨fun f hf => ?_, ?_⟩
      · rcases List.mem_cons.mp hf with rfl | hf
        · exact h1
        · exact lexLt_trans h1 (hhead f hf)
      · rw [List.pairwise_cons]
        exact ⟨hhead, htail⟩
    · rw [if_neg h1]
      by_cases h2 : lexLt k' k = true
      · rw [if_pos h2, SortedStore, List.pairwise_cons]
        refine ⟨fun f hf => ?_, ih htail⟩
        rcases mem_putStore hf with rfl | hf
        · exact h2
        · exact hhead f hf
      · rw [if_neg h2]
        have hkk : k = k' :=
          lexLt_eq_of_not (lexLt_false_of_not h1) (lexLt_false_of_not h2)
        subst hkk
        rw [SortedStore, List.pairwise_cons]
        exact ⟨hhead, htail⟩

theorem sorted_filter {db : Store} (p : Key × Val → Bool) (hs : SortedStore db) :
    SortedStore (db.filter p) :=
  List.Pairwise.sublist (List.filter_sublist db) hs

theorem sorted_scanRange {db : Store} (lo hi : Key) (hs : SortedStore db) :
    SortedStore (scanRange db lo hi) :=
  sorted_filter _ hs

theorem scan_eq_nil {db : Store} {lo hi : Key}
    (h : ∀ e ∈ db, inRange lo hi e.1 = false) : scanRange db lo hi = [] := by
  induction db with
  | nil => rfl
  | cons e rest ih =>
    rw [scanRange_cons, if_neg (by simp [h e (List.mem_cons_self e rest)])]
    exact ih fun f hf => h f (List.mem_cons_of_mem e hf)

theorem scan_put_outside {db : Store} {lo hi k : Key} (v : Val)
    (h : inRange lo hi k = false) :
    scanRange (putStore db k v) lo hi = scanRange db lo hi := by
  induction db with
  | nil => simp [putStore, scanRange, h]
  | cons e rest ih =>
    obtain ⟨k', v'⟩ := e
    simp only [putStore]
    by_cases h1 : lexLt k k' = true
    · rw [if_pos h1, scanRange_cons, if_neg (by simp [h])]
    · rw [if_neg h1]
      by_cases h2 : lexLt k' k = true
      · rw [if_pos h2, scanRange_cons, scanRange_cons, ih]
      · rw [if_neg h2]
        have hkk : k = k' :=
          lexLt_eq_of_not (lexLt_false_of_not h1) (lexLt_false_of_not h2)
        subst hkk
        rw [scanRange_cons, scanRange_cons]
        simp [h]

theorem scan_put_append {db : Store} {lo hi k : Key} (v : Val)
    (hs : SortedStore db) (hk : inRange lo hi k = true)
    (hmax : ∀ e ∈ db, inRange lo hi e.1 = true → lexLt e.1 k = true) :
    scanRange (putStore db k v) lo hi = scanRange db lo hi ++ [(k, v)] := by
  induction db with
  | nil => simp [putStore, scanRange, hk]
  | cons e rest ih =>
    obtain ⟨k', v'⟩ := e
    rw [SortedStore, List.pairwise_cons] at hs
    obtain ⟨hhead, htail⟩ := hs
    simp only [putStore]
    by_cases h1 : lexLt k k' = true
    · rw [if_pos h1]
      have hnone : ∀ f ∈ (k', v') :: rest, inRange lo hi f.1 = false := by
        intro f hf
        by_contra hcon
        have hf2 : inRange lo hi f.1 = true := by simpa using hcon
        have hfk : lexLt f.1 k = true := hmax f hf hf2
        have hk'k : lexLt k' k = true := by
          rcases List.mem_cons.mp hf with rfl | hfr
          · exact hfk
          · exact lexLt_trans (hhead f hfr) hfk
        have hfalse := lexLt_asymm hk'k
        rw [h1] at hfalse
        exact absurd hfalse (by simp)
      rw [scanRange_cons, if_pos (by simpa using hk), scan_eq_nil hnone]
      rfl
    · rw [if_neg h1]
      by_cases h2 : lexLt k' k = true
      · rw [if_pos h2, scanRange_cons, scanRange_cons]
        have ihh := ih htail fun f hf hr => hmax f (List.mem_cons_of_mem _ hf) hr
        by_cases hk' : inRange lo hi (k', v').1 = true
        · rw [if_pos hk', if_pos hk', ihh, List.cons_append]
        · rw [if_neg hk', if_neg hk', ihh]
      · exfalso
        have hkk : k = k' :=
          lexLt_eq_of_not (lexLt_false_of_not h1) (lexLt_false_of_not h2)
        have hin : inRange lo hi k' = true := hkk ▸ hk
        have hlt := hmax (k', v') (List.mem_cons_self _ _) hin
        rw [← hkk, lexLt_irrefl] at hlt
        exact absurd hlt (by simp)

theorem scan_put_front {db : Store} {lo hi k : Key} (v : Val)
    (hk : inRange lo hi k = true)
    (hmin : ∀ e ∈ db, inRange lo hi e.1 = true → lexLt k e.1 = true) :
    scanRange (putStore db k v) lo hi = (k, v) :: scanRange db lo hi := by
  induction db with
  | nil => simp [putStore, scanRange, hk]
  | cons e rest ih =>
    obtain ⟨k', v'⟩ := e
    simp only [putStore]
    by_cases h1 : lexLt k k' = true
    · rw [if_pos h1, scanRange_cons, if_pos (by simpa using hk)]
    · rw [if_neg h1]
      by_cases h2 : lexLt k' k = true
      · rw [if_pos h2]
        have hk'r : inRange lo hi (k', v').1 = false := by
          by_contra hcon
          have hin : inRange lo hi k' = true := by simpa using hcon
          have := hmin (k', v') (List.mem_cons_self _ _) hin
          exact h1 this
        rw [scanRange_cons, if_neg (by simp [hk'r]), scanRange_cons,
          if_neg (by simp [hk'r])]
        exact ih fun f hf hr => hmin f (List.mem_cons_of_mem _ hf) hr
      · exfalso
        have hkk : k = k' :=
          lexLt_eq_of_not (lexLt_false_of_not h1) (lexLt_false_of_not h2)
        have hin : inRange lo hi k' = true := hkk ▸ hk
        have hlt := hmin (k', v') (List.mem_cons_self _ _) hin
        rw [← hkk, lexLt_irrefl] at hlt
        exact absurd hlt (by simp)

theorem sorted_head_min {l : Store} (hs : SortedStore l) {e : Key × Val}
    (h : l.head? = some e) : ∀ f ∈ l, f = e ∨ lexLt e.1 f.1 = true := by
  cases l with
  | nil => simp at h
  | cons a rest =>
    have hae : a = e := by simpa using h
    subst hae
    rw [SortedStore, List.pairwise_cons] at hs
    intro f hf
    rcases List.mem_cons.mp hf with rfl | hf
    · exact Or.inl rfl
    · exact Or.inr (hs.1 f hf)

theorem chunkKey_eq (key ix : Key) : chunkKey key ix = delLo key ++ ix := by
  simp [chunkKey, delLo]

theorem delHi_eq (key : Key) : delHi key = delLo key ++ [':'] := by
  simp [delHi, delLo]

theorem chunkLo_eq (key : Key) : chunkLo key = delLo key ++ ['/'] := by
  simp [chunkLo, delLo]

theorem metaKey_eq (key : Key) : metaKey key = delLo key ++ ['#'] := by
  simp [metaKey, delLo]

theorem userKey_eq (key : Key) : userKey key = delLo key ++ ['*'] := by
  simp [userKey, delLo]

theorem inRange_chunk (key ix : Key) :
    inRange (chunkLo key) (delHi key) (chunkKey key ix) =
      (lexLt ['/'] ix && lexLt ix [':']) := by
  rw [inRange, chunkLo_eq, delHi_eq, chunkKey_eq, lexLt_append_same, lexLt_append_same]

theorem inRange_del_chunk (key : Key) {ix : Key} (h : ix ≠ [])
    (h2 : lexLt ix [':'] = true) :
    inRange (delLo key) (delHi key) (chunkKey key ix) = true := by
  rw [inRange, delHi_eq, chunkKey_eq, lexLt_append_same, lexLt_append_right _ h, h2]
  rfl

theorem read_sub_del {key k : Key} (h : inRange (chunkLo key) (delHi key) k = true) :
    inRange (delLo key) (delHi key) k = true := by
  rw [inRange] at h ⊢
  simp only [Bool.and_eq_true] at h
  obtain ⟨h1, h2⟩ := h
  have hlo : lexLt (delLo key) (chunkLo key) = true := by
    rw [chunkLo_eq]; exact lexLt_append_right _ (by simp)
  rw [lexLt_trans hlo h1, h2]
  rfl

theorem meta_not_in_chunkRange (key : Key) :
    inRange (chunkLo key) (delHi key) (metaKey key) = false := by
  rw [inRange, chunkLo_eq, metaKey_eq, lexLt_append_same]
  rw [show lexLt ['/'] ['#'] = false from rfl, Bool.false_and]

theorem user_not_in_chunkRange (key : Key) :
    inRange (chunkLo key) (delHi key) (userKey key) = false := by
  rw [inRange, chunkLo_eq, userKey_eq, lexLt_append_same]
  rw [show lexLt ['/'] ['*'] = false from rfl, Bool.false_and]

theorem lexLt_between_prefix : ∀ (P E : Key) (c : Char),
    lexLt P E = true → lexLt E (P ++ [c]) = true → P <+: E := by
  intro P
  induction P with
  | nil => intro E c _ _; exact List.nil_prefix
  | cons p ps ih =>
    intro E c h1 h2
    cases E with
    | nil => rw [lexLt_nil_right] at h1; exact absurd h1 (by simp)
    | cons e es =>
      rw [List.cons_append] at h2
      simp only [lexLt] at h1 h2
      by_cases hpe : p < e
      · rw [if_neg (asymm hpe), if_pos hpe] at h2
        exact absurd h2 (by simp)
      · rw [if_neg hpe] at h1
        by_cases hep : e < p
        · rw [if_pos hep] at h1
          exact absurd h1 (by simp)
        · rw [if_neg hep] at h1
          rw [if_neg hep, if_neg hpe] at h2
          have hpe2 : p = e := le_antisymm (not_lt.mp hep) (not_lt.mp hpe)
          subst hpe2
          exact List.cons_prefix_cons.mpr ⟨rfl, ih es c h1 h2⟩

theorem splitSp_unique : ∀ {a : Key} {t b u : Key}, a ++ ' ' :: t = b ++ ' ' :: u →
    ' ' ∉ t → ' ' ∉ u → a = b ∧ t = u := by
  intro a
  induction a with
  | nil =>
    intro t b u heq ht hu
    cases b with
    | nil =>
      rw [List.nil_append, List.nil_append] at heq
      injection heq with _ h2
      exact ⟨rfl, h2⟩
    | cons c bs =>
      rw [List.nil_append, List.cons_append] at heq
      injection heq with _ h2
      exfalso
      apply ht
      rw [h2]
      exact List.mem_append.mpr (Or.inr (List.mem_cons_self _ _))
  | cons x as ih =>
    intro t b u heq ht hu
    cases b with
    | nil =>
      rw [List.cons_append, List.nil_append] at heq
      injection heq with _ h2
      exfalso
      apply hu
      rw [← h2]
      exact List.mem_append.mpr (Or.inr (List.mem_cons_self _ _))
    | cons y bs =>
      rw [List.cons_append, List.cons_append] at heq
      injection heq with h1 h2
      obtain ⟨hab, htu⟩ := ih h2 ht hu
      exact ⟨by rw [h1, hab], htu⟩

theorem split_at_last_sp : ∀ {u : Key}, ' ' ∈ u →
    ∃ u1 u2, u = u1 ++ ' ' :: u2 ∧ ' ' ∉ u2 := by
  intro u
  induction u with
  | nil => intro h; simp at h
  | cons c u ih =>
    intro h
    by_cases hu : ' ' ∈ u
    · obtain ⟨u1, u2, heq, hu2⟩ := ih hu
      exact ⟨c :: u1, u2, by rw [heq, List.cons_append], hu2⟩
    · have hc : c = ' ' := by
        rcases List.mem_cons.mp h with h | h
        · exact h.symm
        · exact absurd h hu
      exact ⟨[], u, by rw [hc, List.nil_append], hu⟩

theorem appendSp_ne {a t b u : Key} (ht : ' ' ∉ t) (hu : ' ' ∉ u) (htu : t ≠ u) :
    a ++ ' ' :: t ≠ b ++ ' ' :: u := fun h => htu (splitSp_unique h ht hu).2

/-- C3: the `append` option is dead code.  The source computes
`this._initial = options && options.append ? options.append : true`, which
is `true` for every value of `append`, so a session opened with
`append: true` still deletes the existing chunk range on its first
non-empty buffer — here the pre-existing chunk at key `"K 5"` is gone
after a one-buffer session opened with `append = true`. -/
theorem append_flag_noop :
    (∀ a : Bool, initInitial a = true) ∧
    getStore [(("K 5").data, Val.bytes [3])] (("K 5").data) = some (Val.bytes [3]) ∧
    getStore (writeAll [(("K 5").data, Val.bytes [3])] (("K").data)
      (fun i => ['1', Nat.digitChar i]) 99 true [[7]]) (("K 5").data) = none := by
  refine ⟨fun a => ?_, by decide, by decide⟩
  cases a <;> rfl

/-- C6: `delete(K)` returns the count of deleted entries: positive when the
stream had at least one chunk, 0 — as a result, not an error — when
nothing is stored in `K`'s range, and 0 again on an immediate second
delete. -/
theorem delete_count_spec (db : Store) (key : Key) :
    (∀ ix b, (chunkKey key ix, Val.bytes b) ∈ db → lexLt ['/'] ix = true →
      lexLt ix [':'] = true → 0 < (streamDelete db key).2) ∧
    ((∀ e ∈ db, inRange (delLo key) (delHi key) e.1 = false) →
      (streamDelete db key).2 = 0) ∧
    (streamDelete (streamDelete db key).1 key).2 = 0 := by
  refine ⟨?_, ?_, ?_⟩
  · intro ix b hmem hlo hhi
    have hne : ix ≠ [] := by
      rintro rfl
      rw [lexLt_nil_right] at hlo
      exact absurd hlo (by simp)
    have hin : inRange (delLo key) (delHi key) (chunkKey key ix) = true :=
      inRange_del_chunk key hne hhi
    have hmem2 : (chunkKey key ix, Val.bytes b) ∈ scanRange db (delLo key) (delHi key) :=
      mem_scanRange.mpr ⟨hmem, hin⟩
    exact List.length_pos.mpr (List.ne_nil_of_mem hmem2)
  · intro h
    simp only [streamDelete, scan_eq_nil h, List.length_nil]
  · apply List.length_eq_zero.mpr
    apply scan_eq_nil
    intro f hf
    have := (List.mem_filter.mp hf).2
    simpa using this

/-- C6 witness: a store holding one chunk of `"K"` reports a positive
delete count, and deleting again right away reports 0. -/
theorem delete_count_witness :
    0 < (streamDelete [(("K 10").data, Val.bytes [1])] (("K").data)).2 ∧
    (streamDelete (streamDelete [(("K 10").data, Val.bytes [1])] (("K").data)).1
      (("K").data)).2 = 0 :=
  ⟨(delete_count_spec _ _).1 (("10").data) [1] (by decide) (by decide) (by decide),
   (delete_count_spec _ _).2.2⟩

/-- C7 counterexample: the claim fails for arbitrary distinct keys.  The
stream key `"a 1"` (which contains the separator) has the legitimate chunk
key `"a 1 1234"`, and that key falls inside both the delete scan range and
the chunk scan range of the distinct stream `"a"`; `"a"`'s reader actually
returns the foreign chunk. -/
theorem scan_range_leak_counterexample :
    ("a 1").data ≠ ("a").data ∧
    inRange (delLo (("a").data)) (delHi (("a").data))
      (chunkKey (("a 1").data) (("1234").data)) = true ∧
    inRange (chunkLo (("a").data)) (delHi (("a").data))
      (chunkKey (("a 1").data) (("1234").data)) = true ∧
    readStreamList [(chunkKey (("a 1").data) (("1234").data), Val.bytes [7])]
      (("a").data) defaultStart = [Val.bytes [7]] := by
  decide

/-- C7 amended: entries of a distinct stream `K2` stay outside `K`'s scan
bounds provided `K2` does not extend `K` by the space separator (the entry
sub-key suffix — an index, `'#'` or `'*'` — never contains a space). -/
theorem scan_range_isolation_amended (K K2 t : Key)
    (hne : K2 ≠ K) (hpre : ¬ delLo K <+: K2) (ht : ' ' ∉ t) :
    inRange (delLo K) (delHi K) (K2 ++ ' ' :: t) = false := by
  by_contra hcon
  have hin : inRange (delLo K) (delHi K) (K2 ++ ' ' :: t) = true := by
    simpa using hcon
  rw [inRange] at hin
  simp only [Bool.and_eq_true] at hin
  obtain ⟨h1, h2⟩ := hin
  rw [delHi_eq] at h2
  have hpref : delLo K <+: K2 ++ ' ' :: t := lexLt_between_prefix _ _ ':' h1 h2
  obtain ⟨u, hu⟩ := hpref
  have hKsp : K2 ++ ' ' :: t = K ++ ' ' :: u := by
    rw [← hu, delLo, List.append_assoc, List.singleton_append]
  by_cases husp : ' ' ∈ u
  · obtain ⟨u1, u2, rfl, hu2⟩ := split_at_last_sp husp
    have hassoc : K ++ ' ' :: (u1 ++ ' ' :: u2) = (K ++ ' ' :: u1) ++ ' ' :: u2 := by
      rw [List.append_assoc, List.cons_append]
    rw [hassoc] at hKsp
    obtain ⟨hK2, _⟩ := splitSp_unique hKsp ht hu2
    apply hpre
    refine ⟨u1, ?_⟩
    rw [hK2, delLo, List.append_assoc, List.singleton_append]
  · obtain ⟨hK2, _⟩ := splitSp_unique hKsp ht husp
    exact hne hK2

/-- C7 amended witness: the chunk key `"b 10"` of stream `"b"` is outside
the scan range of stream `"a"`. -/
theorem scan_range_isolation_witness :
    inRange (delLo (("a").data)) (delHi (("a").data))
      (("b").data ++ ' ' :: ("10").data) = false :=
  scan_range_isolation_amended (("a").data) (("b").data) (("10").data)
    (by decide) (by decide) (by decide)

/-- C8: `setMeta(K, d)` succeeds with `true` and overwrites the user
metadata record exactly when the existence record `K + ' #'` is present;
when it is absent, it returns `false` and leaves the store unchanged. -/
theorem setMeta_spec (db : Store) (key : Key) (d : Obj) :
    (getStore db (metaKey key) = none → streamSetMeta db key d = (db, false)) ∧
    (∀ v, getStore db (metaKey key) = some v →
      streamSetMeta db key d = (putStore db (userKey key) (Val.obj d), true) ∧
      getStore (streamSetMeta db key d).1 (userKey key) = some (Val.obj d)) := by
  constructor
  · intro h
    simp [streamSetMeta, h]
  · intro v h
    refine ⟨by simp [streamSetMeta, h], ?_⟩
    simp [streamSetMeta, h, getStore_put_self]

/-- C8 witness: `setMeta` refuses on an empty store and stores the user
record when the existence record is present. -/
theorem setMeta_witness :
    streamSetMeta [] (("K").data) [("a", 1)] = ([], false) ∧
    getStore (streamSetMeta [(("K #").data, Val.obj [("created", 3)])] (("K").data)
      [("a", 1)]).1 (userKey (("K").data)) = some (Val.obj [("a", 1)]) :=
  ⟨(setMeta_spec [] (("K").data) [("a", 1)]).1 rfl,
   ((setMeta_spec [(("K #").data, Val.obj [("created", 3)])] (("K").data)
      [("a", 1)]).2 (Val.obj [("created", 3)]) (by decide)).2⟩

/-- C9: `prepend(K, buf)` on a key with no chunk in the scan range reports
stream-not-found as the boolean `false` and writes nothing: the store it
returns is the one it was given. -/
theorem prepend_missing_stream (db : Store) (key : Key) (buf : Bytes)
    (h : ∀ e ∈ db, inRange (chunkLo key) (delHi key) e.1 = false) :
    streamPrepend db key buf = (db, false) := by
  rw [streamPrepend, scan_eq_nil h]
  rfl

/-- C9 witness: prepending to `"K"` when the store holds only `"K"`'s
metadata record reports `false` and leaves the store untouched. -/
theorem prepend_missing_stream_witness :
    streamPrepend [(metaKey (("K").data), Val.obj [("created", 1)])] (("K").data) [5] =
      ([(metaKey (("K").data), Val.obj [("created", 1)])], false) :=
  prepend_missing_stream _ _ _ (by decide)

theorem lookupObj_setField (o : Obj) (f : String) (v : Nat) (g : String) :
    lookupObj (setField o f v) g = if g = f then some v else lookupObj o g := by
  induction o with
  | nil =>
    by_cases h : g = f
    · subst h; simp [setField, lookupObj]
    · have h' : ¬ f = g := fun hh => h hh.symm
      simp [setField, lookupObj, h, h']
  | cons e rest ih =>
    obtain ⟨g', w'⟩ := e
    simp only [setField]
    by_cases h1 : g' = f
    · subst h1
      by_cases h2 : g = g'
      · subst h2; simp [lookupObj]
      · have h2' : ¬ g' = g := fun hh => h2 hh.symm
        simp [lookupObj, h2, h2']
    · rw [if_neg h1]
      by_cases h2 : g' = g
      · subst h2
        have : ¬ g' = f := h1
        simp [lookupObj, this]
      · simp [lookupObj, h2, ih]

theorem lookupObj_none_of_not_mem {o : Obj} {f : String}
    (h : f ∉ o.map Prod.fst) : lookupObj o f = none := by
  induction o with
  | nil => rfl
  | cons e rest ih =>
    obtain ⟨g, w⟩ := e
    simp only [List.map_cons, List.mem_cons] at h
    push_neg at h
    simp only [lookupObj, if_neg (fun hh : g = f => h.1 hh.symm)]
    exact ih h.2

theorem lookupObj_mergeObjs (sys : Obj) : ∀ (user : Obj),
    (sys.map Prod.fst).Nodup → ∀ f,
    lookupObj (mergeObjs sys user) f =
      match lookupObj sys f with
      | some v => some v
      | none => lookupObj user f := by
  induction sys with
  | nil => intro user _ f; rfl
  | cons e rest ih =>
    obtain ⟨g, w⟩ := e
    intro user hnd f
    simp only [List.map_cons, List.nodup_cons] at hnd
    obtain ⟨hg, hrest⟩ := hnd
    have hstep : mergeObjs ((g, w) :: rest) user = mergeObjs rest (setField user g w) := rfl
    rw [hstep, ih (setField user g w) hrest f]
    by_cases hgf : g = f
    · subst hgf
      rw [lookupObj_none_of_not_mem hg]
      simp [lookupObj, lookupObj_setField]
    · simp only [lookupObj, if_neg hgf]
      cases hrf : lookupObj rest f with
      | some v => rfl
      | none =>
        simp only []
        rw [lookupObj_setField, if_neg (fun hh : f = g => hgf hh.symm)]

/-- C4 counterexample: the claim fails when the stream exists but no user
metadata was ever set.  With only the existence record `"K #"` present,
`getMeta("K")` returns `false` (the inner get of `"K *"` hits
NotFoundError), not the system fields. -/
theorem getMeta_missing_user_counterexample :
    getStore [(("K #").data, Val.obj [("created", 5)])] (metaKey (("K").data)) =
      some (Val.obj [("created", 5)]) ∧
    streamGetMeta [(("K #").data, Val.obj [("created", 5)])] (("K").data) = none := by
  decide

/-- C4 amended: `getMeta(K)` returns `false` when the existence record
`K + ' #'` is absent, and also when the user record `K + ' *'` is absent;
only when both records are present does it return the user metadata merged
with the system fields, system fields winning on any key collision. -/
theorem getMeta_spec_amended (db : Store) (key : Key) :
    (getStore db (metaKey key) = none → streamGetMeta db key = none) ∧
    (∀ s, getStore db (metaKey key) = some s → getStore db (userKey key) = none →
      streamGetMeta db key = none) ∧
    (∀ so uo, getStore db (metaKey key) = some (Val.obj so) →
      getStore db (userKey key) = some (Val.obj uo) →
      streamGetMeta db key = some (mergeObjs so uo) ∧
      ((so.map Prod.fst).Nodup → ∀ f,
        lookupObj (mergeObjs so uo) f =
          match lookupObj so f with
          | some v => some v
          | none => lookupObj uo f)) := by
  refine ⟨?_, ?_, ?_⟩
  · intro h
    simp [streamGetMeta, h]
  · intro s h1 h2
    simp [streamGetMeta, h1, h2]
  · intro so uo h1 h2
    refine ⟨by simp [streamGetMeta, h1, h2, toObj], fun hnd f => ?_⟩
    exact lookupObj_mergeObjs so uo hnd f

/-- C4 amended witness: with both records present the merge is returned
and the colliding `created` field takes the system value. -/
theorem getMeta_spec_witness :
    streamGetMeta [(("K #").data, Val.obj [("created", 5)]),
        (("K *").data, Val.obj [("a", 1), ("created", 9)])] (("K").data) =
      some (mergeObjs [("created", 5)] [("a", 1), ("created", 9)]) ∧
    lookupObj (mergeObjs [("created", 5)] [("a", 1), ("created", 9)]) "created" =
      some 5 := by
  have h := (getMeta_spec_amended [(("K #").data, Val.obj [("created", 5)]),
      (("K *").data, Val.obj [("a", 1), ("created", 9)])] (("K").data)).2.2
      [("created", 5)] [("a", 1), ("created", 9)] (by decide) (by decide)
  refine ⟨h.1, ?_⟩
  rw [h.2 (by decide) "created"]
  decide

theorem digitChar_props : ∀ d : Nat, d < 16 →
    Nat.digitChar d ≠ ' ' ∧ Nat.digitChar d ≠ '#' ∧ Nat.digitChar d ≠ '*' := by
  decide

theorem hexDigitsFuel_lt16 : ∀ fuel n d, d ∈ hexDigitsFuel fuel n → d < 16 := by
  intro fuel
  induction fuel with
  | zero => intro n d hd; simp [hexDigitsFuel] at hd
  | succ f ih =>
    intro n d hd
    rw [hexDigitsFuel] at hd
    by_cases h : n = 0
    · rw [if_pos h] at hd; simp at hd
    · rw [if_neg h] at hd
      rcases List.mem_cons.mp hd with rfl | hd
      · exact Nat.mod_lt _ (by decide)
      · exact ih _ _ hd

theorem bigDigits_lt16 {n d : Nat} (h : d ∈ bigDigits n) : d < 16 := by
  rw [bigDigits] at h
  by_cases hn : n = 0
  · rw [if_pos hn] at h
    simp at h
    simp [h]
  · rw [if_neg hn] at h
    exact hexDigitsFuel_lt16 n n d (List.mem_reverse.mp h)

theorem natToHex_chars {n : Nat} {c : Char} (h : c ∈ natToHex n) :
    c ≠ ' ' ∧ c ≠ '#' ∧ c ≠ '*' := by
  rw [natToHex] at h
  obtain ⟨d, hd, rfl⟩ := List.mem_map.mp h
  exact digitChar_props d (bigDigits_lt16 hd)

theorem natToHex_ne_nil (n : Nat) : natToHex n ≠ [] := by
  rw [natToHex, bigDigits]
  by_cases hn : n = 0
  · rw [if_pos hn]; decide
  · rw [if_neg hn]
    intro hcon
    rw [List.map_eq_nil_iff, List.reverse_eq_nil_iff] at hcon
    rw [show hexDigitsAux n = hexDigitsFuel n n from rfl] at hcon
    cases hm : n with
    | zero => exact hn hm
    | succ m =>
      rw [hm, hexDigitsFuel, if_neg (Nat.succ_ne_zero m)] at hcon
      exact List.cons_ne_nil _ _ hcon

theorem intToHex_chars {i : Int} {c : Char} (h : c ∈ intToHex i) :
    c ≠ ' ' ∧ c ≠ '#' ∧ c ≠ '*' := by
  rw [intToHex] at h
  by_cases hi : i < 0
  · rw [if_pos hi] at h
    rcases List.mem_cons.mp h with rfl | h
    · exact ⟨by decide, by decide, by decide⟩
    · exact natToHex_chars h
  · rw [if_neg hi] at h
    exact natToHex_chars h

theorem intToHex_ne_nil (i : Int) : intToHex i ≠ [] := by
  rw [intToHex]
  by_cases hi : i < 0
  · rw [if_pos hi]; exact List.cons_ne_nil _ _
  · rw [if_neg hi]; exact natToHex_ne_nil _

theorem jsDecHex_props (s : Key) :
    ' ' ∉ jsDecHex s ∧ '#' ∉ jsDecHex s ∧ '*' ∉ jsDecHex s ∧ jsDecHex s ≠ [] := by
  rw [jsDecHex]
  cases h : jsParseInt16 s with
  | none => exact ⟨by decide, by decide, by decide, by decide⟩
  | some n =>
    refine ⟨fun hc => ?_, fun hc => ?_, fun hc => ?_, intToHex_ne_nil _⟩
    · exact (intToHex_chars hc).1 rfl
    · exact (intToHex_chars hc).2.1 rfl
    · exact (intToHex_chars hc).2.2 rfl

/-- C10: `prepend` neither reads nor writes the metadata records: both the
`' #'` and `' *'` keys of `K` lie outside its minimum-chunk scan range
(which starts strictly above `K + ' /'`), and the key it writes — a
decremented hex component after the last space — can never be a metadata
key, so both records are unchanged by every prepend call. -/
theorem prepend_meta_frame (db : Store) (key : Key) (buf : Bytes) :
    getStore (streamPrepend db key buf).1 (metaKey key) = getStore db (metaKey key) ∧
    getStore (streamPrepend db key buf).1 (userKey key) = getStore db (userKey key) ∧
    inRange (chunkLo key) (delHi key) (metaKey key) = false ∧
    inRange (chunkLo key) (delHi key) (userKey key) = false := by
  refine ⟨?_, ?_, meta_not_in_chunkRange key, user_not_in_chunkRange key⟩
  all_goals
    rw [streamPrepend]
    cases h : (scanRange db (chunkLo key) (delHi key)).head? with
    | none => rfl
    | some e => ?_
  · obtain ⟨hsp, hhash, _, _⟩ := jsDecHex_props (splitLastSp e.1).2
    apply getStore_put_other
    show (splitLastSp e.1).1 ++ ' ' :: jsDecHex (splitLastSp e.1).2 ≠ key ++ ' ' :: ['#']
    exact appendSp_ne hsp (by decide) fun hc => hhash (hc ▸ List.mem_cons_self '#' [])
  · obtain ⟨hsp, _, hstar, _⟩ := jsDecHex_props (splitLastSp e.1).2
    apply getStore_put_other
    show (splitLastSp e.1).1 ++ ' ' :: jsDecHex (splitLastSp e.1).2 ≠ key ++ ' ' :: ['*']
    exact appendSp_ne hsp (by decide) fun hc => hstar (hc ▸ List.mem_cons_self '*' [])

theorem initInitial_true (a : Bool) : initInitial a = true := by
  cases a <;> rfl

theorem writeOne_false (key : Key) (gen : Nat → Key) (ts : Nat) (db : Store) (i : Nat)
    {b : Bytes} (hb : b ≠ []) :
    writeOne key gen ts ⟨db, false, i⟩ b =
      ⟨putStore db (chunkKey key (gen i)) (Val.bytes b), false, i + 1⟩ := by
  cases b with
  | nil => exact absurd rfl hb
  | cons x xs => rfl

theorem writeOne_start (key : Key) (gen : Nat → Key) (ts : Nat) (db : Store) (i : Nat)
    {b : Bytes} (hb : b ≠ []) :
    writeOne key gen ts ⟨db, true, i⟩ b =
      ⟨putStore (putStore (streamDelete db key).1 (metaKey key)
          (Val.obj [("created", ts)])) (chunkKey key (gen i)) (Val.bytes b),
        false, i + 1⟩ := by
  cases b with
  | nil => exact absurd rfl hb
  | cons x xs => rfl

theorem foldl_writeOne_scan (key : Key) (gen : Nat → Key) (ts : Nat) :
    ∀ (bufs : List Bytes) (db : Store) (i : Nat),
    (∀ b ∈ bufs, b ≠ []) → SortedStore db →
    (∀ j, j < i + bufs.length →
      lexLt ['/'] (gen j) = true ∧ lexLt (gen j) [':'] = true) →
    (∀ c, c < i + bufs.length → ∀ a, a < c → lexLt (gen a) (gen c) = true) →
    (∀ e ∈ db, inRange (chunkLo key) (delHi key) e.1 = true →
      ∃ j, j < i ∧ e.1 = chunkKey key (gen j)) →
    scanRange (bufs.foldl (writeOne key gen ts) ⟨db, false, i⟩).db
        (chunkLo key) (delHi key) =
      scanRange db (chunkLo key) (delHi key) ++ chunkEntries key gen i bufs := by
  intro bufs
  induction bufs with
  | nil =>
    intro db i _ _ _ _ _
    simp [chunkEntries]
  | cons b bs ih =>
    intro db i hnb hs hbounds hmono holdk
    have hb : b ≠ [] := hnb b (List.mem_cons_self _ _)
    rw [List.foldl_cons, writeOne_false key gen ts db i hb]
    have hbi : lexLt ['/'] (gen i) = true ∧ lexLt (gen i) [':'] = true :=
      hbounds i (by simp [List.length_cons])
    have hin : inRange (chunkLo key) (delHi key) (chunkKey key (gen i)) = true := by
      rw [inRange_chunk, hbi.1, hbi.2]; rfl
    have hmax : ∀ e ∈ db, inRange (chunkLo key) (delHi key) e.1 = true →
        lexLt e.1 (chunkKey key (gen i)) = true := by
      intro e he hr
      obtain ⟨j, hj, hkey⟩ := holdk e he hr
      rw [hkey, chunkKey_eq, chunkKey_eq, lexLt_append_same]
      exact hmono i (by simp [List.length_cons]) j hj
    have hscan := scan_put_append (Val.bytes b) hs hin hmax
    have ihres := ih (putStore db (chunkKey key (gen i)) (Val.bytes b)) (i + 1)
      (fun x hx => hnb x (List.mem_cons_of_mem _ hx))
      (sorted_putStore _ _ hs)
      (fun j hj => hbounds j (by simp [List.length_cons] at hj ⊢; omega))
      (fun c hc a ha => hmono c (by simp [List.length_cons] at hc ⊢; omega) a ha)
      (fun e he hr => by
        rcases mem_putStore he with rfl | he2
        · exact ⟨i, by omega, rfl⟩
        · obtain ⟨j, hj, hk⟩ := holdk e he2 hr
          exact ⟨j, by omega, hk⟩)
    rw [ihres, hscan, List.append_assoc]
    rfl

theorem writeAll_scan (db : Store) (key : Key) (gen : Nat → Key) (ts : Nat)
    (append : Bool) (bufs : List Bytes)
    (hs : SortedStore db) (hne : bufs ≠ [])
    (hnb : ∀ b ∈ bufs, b ≠ [])
    (hbounds : ∀ j, j < bufs.length →
      lexLt ['/'] (gen j) = true ∧ lexLt (gen j) [':'] = true)
    (hmono : ∀ c, c < bufs.length → ∀ a, a < c → lexLt (gen a) (gen c) = true) :
    scanRange (writeAll db key gen ts append bufs) (chunkLo key) (delHi key) =
      chunkEntries key gen 0 bufs := by
  cases bufs with
  | nil => exact absurd rfl hne
  | cons b bs =>
    have hb : b ≠ [] := hnb b (List.mem_cons_self _ _)
    rw [writeAll, initInitial_true, List.foldl_cons, writeOne_start key gen ts db 0 hb]
    have hsdd : SortedStore (streamDelete db key).1 := sorted_filter _ hs
    have hddnone : ∀ e ∈ (streamDelete db key).1,
        inRange (chunkLo key) (delHi key) e.1 = false := by
      intro e he
      have hnd : (!(inRange (delLo key) (delHi key) e.1)) = true :=
        (List.mem_filter.mp he).2
      by_contra hcon
      have hr : inRange (chunkLo key) (delHi key) e.1 = true := by simpa using hcon
      rw [read_sub_del hr] at hnd
      exact absurd hnd (by simp)
    have hdb1none : ∀ e ∈ putStore (streamDelete db key).1 (metaKey key)
        (Val.obj [("created", ts)]), inRange (chunkLo key) (delHi key) e.1 = false := by
      intro e he
      rcases mem_putStore he with rfl | he2
      · exact meta_not_in_chunkRange key
      · exact hddnone e he2
    have hsdb1 : SortedStore (putStore (streamDelete db key).1 (metaKey key)
        (Val.obj [("created", ts)])) := sorted_putStore _ _ hsdd
    have hb0 : lexLt ['/'] (gen 0) = true ∧ lexLt (gen 0) [':'] = true :=
      hbounds 0 (by simp [List.length_cons])
    have hin0 : inRange (chunkLo key) (delHi key) (chunkKey key (gen 0)) = true := by
      rw [inRange_chunk, hb0.1, hb0.2]; rfl
    have hscan2 : scanRange (putStore (putStore (streamDelete db key).1 (metaKey key)
        (Val.obj [("created", ts)])) (chunkKey key (gen 0)) (Val.bytes b))
        (chunkLo key) (delHi key) = [(chunkKey key (gen 0), Val.bytes b)] := by
      rw [scan_put_append (Val.bytes b) hsdb1 hin0
        (fun e he hr => absurd hr (by rw [hdb1none e he]; simp))]
      rw [scan_eq_nil hdb1none]
      rfl
    have hres := foldl_writeOne_scan key gen ts bs
      (putStore (putStore (streamDelete db key).1 (metaKey key)
        (Val.obj [("created", ts)])) (chunkKey key (gen 0)) (Val.bytes b)) 1
      (fun x hx => hnb x (List.mem_cons_of_mem _ hx))
      (sorted_putStore _ _ hsdb1)
      (fun j hj => hbounds j (by simp [List.length_cons] at hj ⊢; omega))
      (fun c hc a ha => hmono c (by simp [List.length_cons] at hc ⊢; omega) a ha)
      (fun e he hr => by
        rcases mem_putStore he with rfl | he2
        · exact ⟨0, by omega, rfl⟩
        · exact absurd hr (by rw [hdb1none e he2]; simp))
    rw [hres, hscan2]
    rfl

theorem chunkEntries_map_snd (key : Key) (gen : Nat → Key) :
    ∀ (bufs : List Bytes) (i : Nat),
    (chunkEntries key gen i bufs).map (fun e => e.2) = bufs.map Val.bytes := by
  intro bufs
  induction bufs with
  | nil => intro i; rfl
  | cons b bs ih => intro i; simp [chunkEntries, ih]

theorem map_vBytes_bytes : ∀ bufs : List Bytes, (bufs.map Val.bytes).map vBytes = bufs := by
  intro bufs
  induction bufs with
  | nil => rfl
  | cons b bs ih => simp [vBytes, ih]

theorem readStreamList_default (db : Store) (key : Key) :
    readStreamList db key defaultStart =
      (scanRange db (chunkLo key) (delHi key)).map (fun e => e.2) := rfl

/-- C1: round trip.  For every stream key, every sorted starting store and
every non-empty sequence of non-empty buffers written in order through the
write stream (indices supplied by the injected sequence generator, which
per its contract yields strictly increasing indices inside the sentinel
bounds `'/'` and `':'`), reading the key back with the default start index
yields exactly the written buffers, so the concatenations agree. -/
theorem write_read_roundtrip (db : Store) (key : Key) (gen : Nat → Key) (ts : Nat)
    (bufs : List Bytes)
    (hs : SortedStore db) (hne : bufs ≠ []) (hnb : ∀ b ∈ bufs, b ≠ [])
    (hbounds : ∀ j, j < bufs.length →
      lexLt ['/'] (gen j) = true ∧ lexLt (gen j) [':'] = true)
    (hmono : ∀ c, c < bufs.length → ∀ a, a < c → lexLt (gen a) (gen c) = true) :
    readStreamList (writeAll db key gen ts false bufs) key defaultStart =
      bufs.map Val.bytes ∧
    ((readStreamList (writeAll db key gen ts false bufs) key defaultStart).map
      vBytes).flatten = bufs.flatten := by
  have h1 : readStreamList (writeAll db key gen ts false bufs) key defaultStart
      = bufs.map Val.bytes := by
    rw [readStreamList_default,
      writeAll_scan db key gen ts false bufs hs hne hnb hbounds hmono]
    exact chunkEntries_map_snd key gen bufs 0
  refine ⟨h1, ?_⟩
  rw [h1, map_vBytes_bytes]

/-- C1 witness: a two-buffer session on an empty store reads back as the
concatenation of the two buffers. -/
theorem write_read_roundtrip_witness :
    ((readStreamList (writeAll [] (("K").data) (fun i => ['1', Nat.digitChar i]) 7 false
        [[1], [2, 3]]) (("K").data) defaultStart).map vBytes).flatten = [1, 2, 3] := by
  have h := write_read_roundtrip [] (("K").data) (fun i => ['1', Nat.digitChar i]) 7
      [[1], [2, 3]] (by decide) (by decide) (by decide) (by decide) (by decide)
  rw [h.2]
  rfl

/-- C2: full replacement.  A new non-append write session over a store
that already holds chunks of the key leaves the reader seeing exactly the
new content: the read list equals the new buffers, so no chunk value of
the previous content (that is not itself part of the new content) can
appear. -/
theorem write_replaces_content (db : Store) (key : Key) (gen : Nat → Key) (ts : Nat)
    (bufs : List Bytes) (oldIx : Key) (oldVal : Bytes)
    (hs : SortedStore db)
    (hprev : (chunkKey key oldIx, Val.bytes oldVal) ∈ db)
    (hne : bufs ≠ []) (hnb : ∀ b ∈ bufs, b ≠ [])
    (hbounds : ∀ j, j < bufs.length →
      lexLt ['/'] (gen j) = true ∧ lexLt (gen j) [':'] = true)
    (hmono : ∀ c, c < bufs.length → ∀ a, a < c → lexLt (gen a) (gen c) = true) :
    readStreamList (writeAll db key gen ts false bufs) key defaultStart =
      bufs.map Val.bytes ∧
    (Val.bytes oldVal ∉ bufs.map Val.bytes →
      Val.bytes oldVal ∉
        readStreamList (writeAll db key gen ts false bufs) key defaultStart) := by
  have h1 : readStreamList (writeAll db key gen ts false bufs) key defaultStart
      = bufs.map Val.bytes := by
    rw [readStreamList_default,
      writeAll_scan db key gen ts false bufs hs hne hnb hbounds hmono]
    exact chunkEntries_map_snd key gen bufs 0
  refine ⟨h1, fun hnot => ?_⟩
  rw [h1]
  exact hnot

/-- C2 witness: rewriting key `"K"` (old chunk `[9]` under `"K 20"`) with
the single buffer `[1]` reads back as `[1]` only; the old value is gone. -/
theorem write_replaces_content_witness :
    readStreamList (writeAll [((("K 20").data), Val.bytes [9])] (("K").data)
      (fun i => ['1', Nat.digitChar i]) 7 false [[1]]) (("K").data) defaultStart
      = [Val.bytes [1]] ∧
    Val.bytes [9] ∉ readStreamList (writeAll [((("K 20").data), Val.bytes [9])]
      (("K").data) (fun i => ['1', Nat.digitChar i]) 7 false [[1]]) (("K").data)
      defaultStart := by
  have h := write_replaces_content [((("K 20").data), Val.bytes [9])] (("K").data)
      (fun i => ['1', Nat.digitChar i]) 7 [[1]] (("20").data) [9]
      (by decide) (by decide) (by decide) (by decide) (by decide) (by decide)
  exact ⟨h.1, h.2 (by decide)⟩

theorem hexDigitsFuel_eq : ∀ f n, n ≤ f → hexDigitsFuel f n = hexDigitsFuel n n := by
  intro f
  induction f using Nat.strong_induction_on with
  | _ f ih =>
    intro n hn
    cases f with
    | zero =>
      cases n with
      | zero => rfl
      | succ m => omega
    | succ f2 =>
      cases n with
      | zero => rfl
      | succ m =>
        show (m + 1) % 16 :: hexDigitsFuel f2 ((m + 1) / 16) =
          (m + 1) % 16 :: hexDigitsFuel m ((m + 1) / 16)
        have hdiv : (m + 1) / 16 < m + 1 := Nat.div_lt_self (Nat.succ_pos m) (by decide)
        have e1 : hexDigitsFuel f2 ((m + 1) / 16) =
            hexDigitsFuel ((m + 1) / 16) ((m + 1) / 16) := ih f2 (by omega) _ (by omega)
        have e2 : hexDigitsFuel m ((m + 1) / 16) =
            hexDigitsFuel ((m + 1) / 16) ((m + 1) / 16) := ih m (by omega) _ (by omega)
        rw [e1, e2]

theorem hexDigitsAux_rec {n : Nat} (h : n ≠ 0) :
    hexDigitsAux n = n % 16 :: hexDigitsAux (n / 16) := by
  cases n with
  | zero => exact absurd rfl h
  | succ m =>
    show hexDigitsFuel (m + 1) (m + 1) =
      (m + 1) % 16 :: hexDigitsFuel ((m + 1) / 16) ((m + 1) / 16)
    show (m + 1) % 16 :: hexDigitsFuel m ((m + 1) / 16) = _
    congr 1
    have hdiv : (m + 1) / 16 < m + 1 := Nat.div_lt_self (Nat.succ_pos m) (by decide)
    exact hexDigitsFuel_eq m ((m + 1) / 16) (by omega)

theorem foldl_digits_init : ∀ (l : List Nat) (i : Nat),
    l.foldl (fun a d => a * 16 + d) i = i * 16 ^ l.length + ofDigitsBE l := by
  intro l
  induction l with
  | nil => intro i; simp [ofDigitsBE]
  | cons d ds ih =>
    intro i
    show ds.foldl _ (i * 16 + d) = _
    rw [ih (i * 16 + d)]
    have hcons : ofDigitsBE (d :: ds) = ds.foldl (fun a d => a * 16 + d) (0 * 16 + d) := rfl
    rw [hcons, ih (0 * 16 + d), List.length_cons]
    ring

theorem ofDigitsBE_cons (d : Nat) (ds : List Nat) :
    ofDigitsBE (d :: ds) = d * 16 ^ ds.length + ofDigitsBE ds := by
  show ds.foldl _ (0 * 16 + d) = _
  rw [foldl_digits_init]
  have : 0 * 16 + d = d := by omega
  rw [this]

theorem ofDigitsBE_lt (l : List Nat) (h : ∀ d ∈ l, d < 16) :
    ofDigitsBE l < 16 ^ l.length := by
  induction l with
  | nil => simp [ofDigitsBE]
  | cons d ds ih =>
    rw [ofDigitsBE_cons, List.length_cons]
    have hd : d < 16 := h d (List.mem_cons_self _ _)
    have hds := ih fun x hx => h x (List.mem_cons_of_mem _ hx)
    have step2 : d * 16 ^ ds.length + 16 ^ ds.length = (d + 1) * 16 ^ ds.length := by
      rw [Nat.succ_mul]
    have step3 : (d + 1) * 16 ^ ds.length ≤ 16 * 16 ^ ds.length :=
      Nat.mul_le_mul_right _ hd
    have step4 : 16 * 16 ^ ds.length = 16 ^ (ds.length + 1) := by
      rw [pow_succ, Nat.mul_comm]
    omega

theorem digitChar_mono : ∀ d, d < 16 → ∀ e, e < 16 → d < e →
    Nat.digitChar d < Nat.digitChar e := by
  decide

theorem lexLt_of_digits_lt : ∀ (a b : List Nat), a.length = b.length →
    (∀ d ∈ a, d < 16) → (∀ d ∈ b, d < 16) → ofDigitsBE a < ofDigitsBE b →
    lexLt (a.map Nat.digitChar) (b.map Nat.digitChar) = true := by
  intro a
  induction a with
  | nil =>
    intro b hlen _ _ hval
    cases b with
    | nil => simp [ofDigitsBE] at hval
    | cons e es => simp at hlen
  | cons d ds ih =>
    intro b hlen ha hb hval
    cases b with
    | nil => simp at hlen
    | cons e es =>
      simp only [List.length_cons] at hlen
      have hlen' : ds.length = es.length := by omega
      rw [ofDigitsBE_cons, ofDigitsBE_cons] at hval
      have hd : d < 16 := ha d (List.mem_cons_self _ _)
      have he : e < 16 := hb e (List.mem_cons_self _ _)
      rcases lt_trichotomy d e with hde | hde | hde
      · simp only [List.map_cons, lexLt]
        rw [if_pos (digitChar_mono d hd e he hde)]
      · subst hde
        rw [hlen'] at hval
        have hval' : ofDigitsBE ds < ofDigitsBE es := by omega
        simp only [List.map_cons]
        rw [lexLt_cons_same]
        exact ih es hlen' (fun x hx => ha x (List.mem_cons_of_mem _ hx))
          (fun x hx => hb x (List.mem_cons_of_mem _ hx)) hval'
      · exfalso
        rw [hlen'] at hval
        have hA : ofDigitsBE ds < 16 ^ ds.length :=
          ofDigitsBE_lt ds fun x hx => ha x (List.mem_cons_of_mem _ hx)
        have hB : ofDigitsBE es < 16 ^ es.length :=
          ofDigitsBE_lt es fun x hx => hb x (List.mem_cons_of_mem _ hx)
        have h1 : e * 16 ^ es.length + 16 ^ es.length = (e + 1) * 16 ^ es.length := by
          rw [Nat.succ_mul]
        have h2 : (e + 1) * 16 ^ es.length ≤ d * 16 ^ es.length :=
          Nat.mul_le_mul_right _ hde
        rw [hlen'] at hA
        omega

theorem ofDigitsBE_append_single (l : List Nat) (d : Nat) :
    ofDigitsBE (l ++ [d]) = ofDigitsBE l * 16 + d := by
  show (l ++ [d]).foldl _ 0 = _
  rw [List.foldl_append]
  rfl

theorem ofDigitsBE_revAux : ∀ n, ofDigitsBE (hexDigitsAux n).reverse = n := by
  intro n
  induction n using Nat.strong_induction_on with
  | _ n ih =>
    by_cases h : n = 0
    · subst h; rfl
    · rw [hexDigitsAux_rec h, List.reverse_cons, ofDigitsBE_append_single]
      rw [ih (n / 16) (Nat.div_lt_self (Nat.pos_of_ne_zero h) (by decide))]
      omega

theorem ofDigitsBE_bigDigits (n : Nat) : ofDigitsBE (bigDigits n) = n := by
  rw [bigDigits]
  by_cases h : n = 0
  · rw [if_pos h, h]; rfl
  · rw [if_neg h]; exact ofDigitsBE_revAux n

theorem natToHex_lt {m n : Nat} (hmn : m < n)
    (hlen : (natToHex m).length = (natToHex n).length) :
    lexLt (natToHex m) (natToHex n) = true := by
  have hlen' : (bigDigits m).length = (bigDigits n).length := by
    simpa [natToHex, List.length_map] using hlen
  have hval : ofDigitsBE (bigDigits m) < ofDigitsBE (bigDigits n) := by
    rw [ofDigitsBE_bigDigits, ofDigitsBE_bigDigits]; exact hmn
  exact lexLt_of_digits_lt (bigDigits m) (bigDigits n) hlen'
    (fun d hd => bigDigits_lt16 hd) (fun d hd => bigDigits_lt16 hd) hval

theorem bigDigits_ne_nil (n : Nat) : bigDigits n ≠ [] := by
  rw [bigDigits]
  by_cases h : n = 0
  · rw [if_pos h]; exact List.cons_ne_nil _ _
  · rw [if_neg h]
    intro hcon
    rw [List.reverse_eq_nil_iff] at hcon
    rw [hexDigitsAux_rec h] at hcon
    exact List.cons_ne_nil _ _ hcon

theorem slash_lt_digitChar : ∀ d, d < 16 → '/' < Nat.digitChar d := by
  decide

theorem lexLt_slash_natToHex (w : Nat) : lexLt ['/'] (natToHex w) = true := by
  cases hl : bigDigits w with
  | nil => exact absurd hl (bigDigits_ne_nil w)
  | cons d ds =>
    have hd : d < 16 := bigDigits_lt16 (hl ▸ List.mem_cons_self d ds)
    rw [natToHex, hl, List.map_cons]
    simp only [lexLt]
    rw [if_pos (slash_lt_digitChar d hd)]

theorem hexVal_digitChar : ∀ d, d < 16 → hexVal (Nat.digitChar d) = some d := by
  decide

theorem takeWhile_all {p : Char → Bool} : ∀ {l : Key},
    (∀ c ∈ l, p c = true) → l.takeWhile p = l := by
  intro l
  induction l with
  | nil => intro _; rfl
  | cons c cs ih =>
    intro h
    rw [List.takeWhile_cons_of_pos (h c (List.mem_cons_self _ _))]
    rw [ih fun x hx => h x (List.mem_cons_of_mem _ hx)]

theorem jsParseInt16_natToHex (v : Nat) : jsParseInt16 (natToHex v) = some v := by
  have hall : ∀ c ∈ natToHex v, ((hexVal c).isSome) = true := by
    intro c hc
    rw [natToHex] at hc
    obtain ⟨d, hd, rfl⟩ := List.mem_map.mp hc
    rw [hexVal_digitChar d (bigDigits_lt16 hd)]
    rfl
  have hemp : (natToHex v).isEmpty = false := by
    cases hl : natToHex v with
    | nil => exact absurd hl (natToHex_ne_nil v)
    | cons c cs => rfl
  simp only [jsParseInt16]
  rw [takeWhile_all hall, hemp]
  simp only [Bool.false_eq_true, if_false]
  congr 1
  rw [natToHex, List.foldl_map]
  have hstep : ∀ (l : List Nat) (i : Nat), (∀ d ∈ l, d < 16) →
      l.foldl (fun a d => a * 16 + (hexVal (Nat.digitChar d)).getD 0) i =
      l.foldl (fun a d => a * 16 + d) i := by
    intro l
    induction l with
    | nil => intro i _; rfl
    | cons d ds ih =>
      intro i h
      show ds.foldl _ (i * 16 + (hexVal (Nat.digitChar d)).getD 0) = _
      rw [hexVal_digitChar d (h d (List.mem_cons_self _ _))]
      exact ih _ fun x hx => h x (List.mem_cons_of_mem _ hx)
  rw [hstep (bigDigits v) 0 fun d hd => bigDigits_lt16 hd]
  exact ofDigitsBE_bigDigits v

theorem jsDecHex_natToHex {v : Nat} (hv : 1 ≤ v) :
    jsDecHex (natToHex v) = natToHex (v - 1) := by
  rw [jsDecHex, jsParseInt16_natToHex]
  show intToHex ((v : Int) - 1) = _
  rw [intToHex, if_neg (by omega : ¬ (v : Int) - 1 < 0)]
  congr 1
  omega

theorem takeWhile_dropWhile_append {p : Char → Bool} :
    ∀ (l1 : Key) (x : Char) (l2 : Key), (∀ c ∈ l1, p c = true) → p x = false →
    (l1 ++ x :: l2).takeWhile p = l1 ∧ (l1 ++ x :: l2).dropWhile p = x :: l2 := by
  intro l1
  induction l1 with
  | nil =>
    intro x l2 _ hx
    rw [List.nil_append]
    exact ⟨List.takeWhile_cons_of_neg (by simp [hx]),
      List.dropWhile_cons_of_neg (by simp [hx])⟩
  | cons c cs ih =>
    intro x l2 h hx
    obtain ⟨iht, ihd⟩ := ih x l2 (fun y hy => h y (List.mem_cons_of_mem _ hy)) hx
    constructor
    · rw [List.cons_append, List.takeWhile_cons_of_pos (h c (List.mem_cons_self _ _)), iht]
    · rw [List.cons_append, List.dropWhile_cons_of_pos (h c (List.mem_cons_self _ _)), ihd]

theorem splitLastSp_append {p ix : Key} (h : ' ' ∉ ix) :
    splitLastSp (p ++ ' ' :: ix) = (p, ix) := by
  have hrev : (p ++ ' ' :: ix).reverse = ix.reverse ++ ' ' :: p.reverse := by
    rw [List.reverse_append, List.reverse_cons, List.append_assoc, List.singleton_append]
  have hall : ∀ c ∈ ix.reverse, (fun c => decide (c ≠ ' ')) c = true := by
    intro c hc
    simp only [decide_eq_true_eq]
    intro hceq
    exact h (hceq ▸ List.mem_reverse.mp hc)
  obtain ⟨ht, hd⟩ := takeWhile_dropWhile_append ix.reverse ' ' p.reverse hall (by decide)
  simp only [splitLastSp]
  rw [hrev, ht, hd, List.tail_cons, List.reverse_reverse, List.reverse_reverse]

theorem streamPrepend_found {db : Store} {key ix : Key} {w : Val} (buf : Bytes)
    (hhead : (scanRange db (chunkLo key) (delHi key)).head? = some (chunkKey key ix, w))
    (hsp : ' ' ∉ ix) :
    streamPrepend db key buf =
      (putStore db (key ++ ' ' :: jsDecHex ix) (Val.bytes buf), true) := by
  rw [streamPrepend, hhead]
  show (putStore db ((splitLastSp (chunkKey key ix)).1 ++
      ' ' :: jsDecHex (splitLastSp (chunkKey key ix)).2) (Val.bytes buf), true) = _
  simp only [chunkKey]
  rw [splitLastSp_append hsp]

/-- C5 counterexample: the claim fails when decrementing the smallest hex
index shortens it.  With the single chunk `"K 1000"`, prepend parses
`0x1000`, decrements to `0xfff` and writes `"K fff"` — but `"fff"` sorts
lexicographically after `"1000"` and even after the `':'` bound, so the
new sub-key is not between the low bound and the old minimum, and a read
after the prepend returns only the old chunk, without the prepended
buffer. -/
theorem prepend_hex_shorten_counterexample :
    streamPrepend [((("K 1000").data), Val.bytes [1])] (("K").data) [2] =
      ([((("K 1000").data), Val.bytes [1]), ((("K fff").data), Val.bytes [2])], true) ∧
    lexLt (("fff").data) (("1000").data) = false ∧
    lexLt (("K fff").data) (delHi (("K").data)) = false ∧
    readStreamList (streamPrepend [((("K 1000").data), Val.bytes [1])] (("K").data)
      [2]).1 (("K").data) defaultStart = [Val.bytes [1]] := by
  decide

/-- C5 amended: when the smallest chunk sub-key of the stream is the
canonical hex string of a value `v ≥ 1` whose decrement keeps the same
number of hex digits (that is, `v` is not a power of 16), `prepend` stores
the buffer under a sub-key strictly between the low bound and the current
smallest chunk sub-key, and a subsequent read yields the buffer followed
by the prior content with the prior order unchanged. -/
theorem prepend_before_min_amended (db : Store) (key : Key) (buf : Bytes) (v : Nat)
    (w : Val) (hs : SortedStore db)
    (hhead : (scanRange db (chunkLo key) (delHi key)).head? =
      some (chunkKey key (natToHex v), w))
    (hv : 1 ≤ v)
    (hlen : (natToHex (v - 1)).length = (natToHex v).length) :
    lexLt (chunkLo key) (chunkKey key (natToHex (v - 1))) = true ∧
    lexLt (chunkKey key (natToHex (v - 1))) (chunkKey key (natToHex v)) = true ∧
    streamPrepend db key buf =
      (putStore db (chunkKey key (natToHex (v - 1))) (Val.bytes buf), true) ∧
    readStreamList (streamPrepend db key buf).1 key defaultStart =
      Val.bytes buf :: readStreamList db key defaultStart := by
  have hixlt : lexLt (natToHex (v - 1)) (natToHex v) = true :=
    natToHex_lt (by omega) hlen
  have hklt : lexLt (chunkKey key (natToHex (v - 1))) (chunkKey key (natToHex v)) = true := by
    rw [chunkKey_eq, chunkKey_eq, lexLt_append_same]; exact hixlt
  have hlo : lexLt (chunkLo key) (chunkKey key (natToHex (v - 1))) = true := by
    rw [chunkLo_eq, chunkKey_eq, lexLt_append_same]
    exact lexLt_slash_natToHex (v - 1)
  have hfk_mem : (chunkKey key (natToHex v), w) ∈
      scanRange db (chunkLo key) (delHi key) := by
    cases hsc : scanRange db (chunkLo key) (delHi key) with
    | nil => rw [hsc] at hhead; simp at hhead
    | cons a rest =>
      rw [hsc] at hhead
      have ha : a = (chunkKey key (natToHex v), w) := by simpa using hhead
      rw [ha]
      exact List.mem_cons_self _ _
  have hfk_range := (mem_scanRange.mp hfk_mem).2
  have hhi : lexLt (chunkKey key (natToHex v)) (delHi key) = true := by
    rw [inRange] at hfk_range
    simp only [Bool.and_eq_true] at hfk_range
    exact hfk_range.2
  have hnk_range : inRange (chunkLo key) (delHi key)
      (chunkKey key (natToHex (v - 1))) = true := by
    rw [inRange, hlo, lexLt_trans hklt hhi]
    rfl
  have hmin : ∀ e ∈ db, inRange (chunkLo key) (delHi key) e.1 = true →
      lexLt (chunkKey key (natToHex (v - 1))) e.1 = true := by
    intro e he hr
    have hesc : e ∈ scanRange db (chunkLo key) (delHi key) := mem_scanRange.mpr ⟨he, hr⟩
    rcases sorted_head_min (sorted_scanRange _ _ hs) hhead e hesc with rfl | hlt
    · exact hklt
    · exact lexLt_trans hklt hlt
  have hsp : ' ' ∉ natToHex v := fun hc => (natToHex_chars hc).1 rfl
  have hprep : streamPrepend db key buf =
      (putStore db (chunkKey key (natToHex (v - 1))) (Val.bytes buf), true) := by
    rw [streamPrepend_found buf hhead hsp, jsDecHex_natToHex hv]
    rfl
  refine ⟨hlo, hklt, hprep, ?_⟩
  rw [hprep]
  rw [readStreamList_default, readStreamList_default,
    scan_put_front (Val.bytes buf) hnk_range hmin]
  rfl

/-- C5 amended witness: with the single chunk `"K 3"` (value 3, not a
power of 16), prepending `[9]` reads back as `[9]` then the old chunk. -/
theorem prepend_before_min_witness :
    readStreamList (streamPrepend [((("K 3").data), Val.bytes [1])] (("K").data) [9]).1
      (("K").data) defaultStart =
      Val.bytes [9] :: readStreamList [((("K 3").data), Val.bytes [1])] (("K").data)
        defaultStart := by
  have h := prepend_before_min_amended [((("K 3").data), Val.bytes [1])] (("K").data)
      [9] 3 (Val.bytes [1]) (by decide) (by decide) (by decide) (by decide)
  exact h.2.2.2

end LevelStream
